import Mathlib

/-!
Verification of the entity-resolution core of the Hua chatbot backend
(`src/actions/actions.py`): Greek text normalization (`normalize_greek`),
the tiered matcher / deduplicating merger (`_ranked_matches`), and the
difflib-based fuzzy tier (`get_close_matches` / `SequenceMatcher.ratio`).

Strings are modelled as lists of Unicode code points (`List Nat`).
Python's `str.lower` and `str.strip` are modelled on the character ranges
the application manipulates (ASCII and the Greek-and-Coptic block, plus the
Unicode whitespace set); on those ranges the model agrees with CPython.
-/

namespace Hua

/-- A string as a list of Unicode code points. -/
abbrev Str := List Nat

/-- Convert a Lean string literal to the code-point model. -/
def gstr (s : String) : Str := s.data.map Char.toNat

/-- The Unicode whitespace set used by Python's `str.strip()`. -/
def isPySpace (c : Nat) : Bool :=
  decide (c = 9 ∨ c = 10 ∨ c = 11 ∨ c = 12 ∨ c = 13 ∨ (28 ≤ c ∧ c ≤ 32) ∨
    c = 133 ∨ c = 160 ∨ c = 5760 ∨ (8192 ≤ c ∧ c ≤ 8202) ∨ c = 8232 ∨
    c = 8233 ∨ c = 8239 ∨ c = 8287 ∨ c = 12288)

/-- Drop whitespace from the end of a string (helper for `pyStrip`). -/
def dropEndWhile (p : Nat → Bool) (s : Str) : Str :=
  (s.reverse.dropWhile p).reverse

/-- Python `str.strip()`: remove leading and trailing whitespace. -/
def pyStrip (s : Str) : Str := dropEndWhile isPySpace (s.dropWhile isPySpace)

/-- Python `str.lower()` on one code point, for ASCII and the
Greek-and-Coptic block (the simple Unicode lowercase mapping; all other
code points are left unchanged, which agrees with CPython on every
character the application handles). -/
def pyLowerChar (c : Nat) : Nat :=
  if 65 ≤ c ∧ c ≤ 90 then c + 32          -- A..Z
  else if c = 902 then 940                 -- Ά → ά
  else if 904 ≤ c ∧ c ≤ 906 then c + 37    -- Έ Ή Ί → έ ή ί
  else if c = 908 then 972                 -- Ό → ό
  else if 910 ≤ c ∧ c ≤ 911 then c + 63    -- Ύ Ώ → ύ ώ
  else if 913 ≤ c ∧ c ≤ 929 then c + 32    -- Α..Ρ → α..ρ
  else if 931 ≤ c ∧ c ≤ 939 then c + 32    -- Σ..Ϋ → σ..ϋ
  else c

/-- `Cased` code points of the ranges the application handles
(Latin and Greek letters). -/
def isCased (c : Nat) : Bool :=
  decide ((65 ≤ c ∧ c ≤ 90) ∨ (97 ≤ c ∧ c ≤ 122) ∨ c = 902 ∨
    (904 ≤ c ∧ c ≤ 906) ∨ c = 908 ∨ (910 ≤ c ∧ c ≤ 929) ∨
    (931 ≤ c ∧ c ≤ 974))

/-- `Case_Ignorable` code points of the ranges the application handles
(apostrophes, middle dots, and the word-internal punctuation the
Final_Sigma rule skips over). -/
def isCaseIgnorable (c : Nat) : Bool :=
  decide (c = 39 ∨ c = 46 ∨ c = 58 ∨ c = 183 ∨ c = 903 ∨ c = 8217)

/-- Is the first non-case-ignorable character of `s` cased?
(the forward scan of CPython's Final_Sigma test). -/
def nextCased : Str → Bool
  | [] => false
  | c :: rest => if isCaseIgnorable c then nextCased rest else isCased c

/-- Python `str.lower()` with the Unicode Final_Sigma rule exactly as in
CPython's `lower_ucs4`: `Σ` (931) lowers to `ς` (962) when preceded
(through case-ignorable characters) by a cased character and not followed
(through case-ignorable characters) by one; every other character lowers
by `pyLowerChar`.  `prevCased` records whether the last
non-case-ignorable character already emitted was cased. -/
def pyLowerGo : Bool → Str → Str
  | _, [] => []
  | prevCased, c :: rest =>
      (if c = 931 ∧ prevCased ∧ nextCased rest = false then 962
       else pyLowerChar c) ::
        pyLowerGo (if isCaseIgnorable c then prevCased else isCased c) rest

/-- Python `str.lower()` on a string. -/
def pyLower (s : Str) : Str := pyLowerGo false s

/-- The `REPLACEMENTS` dict of `actions.py` (lines 148–151), in insertion
order: accented Greek vowels mapped to their unaccented lower-case base. -/
def REPLACEMENTS : List (Nat × Nat) :=
  [(940, 945),   -- ά → α
   (943, 953),   -- ί → ι
   (970, 953),   -- ϊ → ι
   (912, 953),   -- ΐ → ι
   (974, 969),   -- ώ → ω
   (944, 965),   -- ΰ → υ
   (971, 965),   -- ϋ → υ
   (973, 965),   -- ύ → υ
   (941, 949),   -- έ → ε
   (972, 959),   -- ό → ο
   (942, 951),   -- ή → η
   (902, 945),   -- Ά → α
   (906, 953),   -- Ί → ι
   (938, 953),   -- Ϊ → ι
   (911, 969),   -- Ώ → ω
   (939, 965),   -- Ϋ → υ
   (910, 965),   -- Ύ → υ
   (904, 949),   -- Έ → ε
   (908, 959),   -- Ό → ο
   (905, 951)]   -- Ή → η

/-- Python `str.replace` for a single-character pattern. -/
def pyReplace (s : Str) (src dst : Nat) : Str :=
  s.map fun c => if c = src then dst else c

/-- `normalize_greek` (actions.py lines 155–159): apply every entry of
`REPLACEMENTS` in order, then lower-case the result. -/
def normalize_greek (s : Str) : Str :=
  pyLower (REPLACEMENTS.foldl (fun t p => pyReplace t p.1 p.2) s)

/-- One professor row as read from the database:
`(email, f_name, l_name, gender, office, phone, category, area_of,
academic_web_page, image_url)`.  The matcher reads only the first three
fields; the rest is opaque display payload. -/
structure Row where
  email : Str
  f_name : Str
  l_name : Str
  payload : List Str
deriving DecidableEq

/-- `_display_name` (actions.py lines 186–188):
`f"{(f or '').strip()} {(l or '').strip()}".strip()`. -/
def display_name (f l : Str) : Str :=
  pyStrip (pyStrip f ++ [32] ++ pyStrip l)

/-- `norm_parts` (actions.py lines 209–212): normalized first, last and
full name of a row. -/
def norm_parts (r : Row) : Str × Str × Str :=
  (normalize_greek r.f_name, normalize_greek r.l_name,
   normalize_greek (display_name r.f_name r.l_name))

/-- Normalized first name. -/
def nfOf (r : Row) : Str := (norm_parts r).1

/-- Normalized last name. -/
def nlOf (r : Row) : Str := (norm_parts r).2.1

/-- Normalized full name. -/
def nfullOf (r : Row) : Str := (norm_parts r).2.2

/-- Does `s` start with `p`? (helper for the Python `in` operator). -/
def listStarts : Str → Str → Bool
  | [], _ => true
  | _ :: _, [] => false
  | a :: as, b :: bs => a == b && listStarts as bs

/-- Python's `p in s` on strings: `p` occurs contiguously in `s`
(the empty string occurs in every string). -/
def isSub (p : Str) : Str → Bool
  | [] => p.isEmpty
  | c :: rest => listStarts p (c :: rest) || isSub p rest

/-- Condition of the `exact_last` tier (actions.py line 230):
`nl and q == nl`. -/
def bLast (q : Str) (r : Row) : Bool :=
  !(nlOf r).isEmpty && q == nlOf r

/-- Condition of the `exact_first` tier (line 232): `nf and q == nf`. -/
def bFirst (q : Str) (r : Row) : Bool :=
  !(nfOf r).isEmpty && q == nfOf r

/-- Condition of the `exact_full` tier (line 234): `nfull and q == nfull`. -/
def bFull (q : Str) (r : Row) : Bool :=
  !(nfullOf r).isEmpty && q == nfullOf r

/-- Condition of the substring tier (line 236):
`(nl and nl in q) or (nf and nf in q) or (nfull and nfull in q)
 or (q in nl) or (q in nf) or (q in nfull)`. -/
def bSub (q : Str) (r : Row) : Bool :=
  (!(nlOf r).isEmpty && isSub (nlOf r) q) ||
  (!(nfOf r).isEmpty && isSub (nfOf r) q) ||
  (!(nfullOf r).isEmpty && isSub (nfullOf r) q) ||
  isSub q (nlOf r) || isSub q (nfOf r) || isSub q (nfullOf r)

/-- The `exact_last` bucket: rows matching the first branch of the
`if`/`elif` chain, in input order. -/
def exact_last (q : Str) (rows : List Row) : List Row :=
  rows.filter (bLast q)

/-- The `exact_first` bucket: rows reaching and matching the second
branch. -/
def exact_first (q : Str) (rows : List Row) : List Row :=
  rows.filter fun r => !bLast q r && bFirst q r

/-- The `exact_full` bucket: rows reaching and matching the third branch. -/
def exact_full (q : Str) (rows : List Row) : List Row :=
  rows.filter fun r => !bLast q r && !bFirst q r && bFull q r

/-- The substring bucket: rows reaching and matching the fourth branch. -/
def sub_hits (q : Str) (rows : List Row) : List Row :=
  rows.filter fun r => !bLast q r && !bFirst q r && !bFull q r && bSub q r

/-!
### difflib

`SequenceMatcher` as used by `get_close_matches` (no junk: the autojunk
heuristic only fires for second sequences of at least 200 characters, far
beyond any query or name handled here).
-/

/-- One row of the `j2len` dynamic program of
`SequenceMatcher.find_longest_match`: `row[j]` is the length of the longest
common run of `a` and `b` ending at the current `a`-index and at `b`-index
`j`.  `prev` is the previous row, `diag` the entry `prev[j-1]` (zero when
`j = 0` or the previous row is exhausted). -/
def nextRow (ai : Nat) : Str → List Nat → Nat → List Nat
  | [], _, _ => []
  | bj :: bs, [], diag => (if bj = ai then diag + 1 else 0) :: nextRow ai bs [] 0
  | bj :: bs, p0 :: ps, diag =>
      (if bj = ai then diag + 1 else 0) :: nextRow ai bs ps p0

/-- Scan one DP row (`j` is the `b`-index of the head entry), updating the
current best `(besti, bestj, bestsize)` exactly when an entry strictly
exceeds `bestsize` — the tie-break of CPython's loop. -/
def bestInRow (i : Nat) : Nat → List Nat → Nat × Nat × Nat → Nat × Nat × Nat
  | _, [], best => best
  | j, k :: rest, (bi, bj, bk) =>
      bestInRow i (j + 1) rest
        (if bk < k then (i + 1 - k, j + 1 - k, k) else (bi, bj, bk))

/-- The outer loop of `find_longest_match`: fold the DP over the elements
of `a` (with index `i`), threading the previous row and the best block
(the current row is computed once per `a`-element, as in CPython). -/
def flmAux (b : Str) : Str → Nat → List Nat → Nat × Nat × Nat → Nat × Nat × Nat
  | [], _, _, best => best
  | ai :: as, i, prev, best =>
      flmAux b as (i + 1) (nextRow ai b prev 0)
        (bestInRow i 0 (nextRow ai b prev 0) best)

/-- `SequenceMatcher.find_longest_match` over the whole of `a` and `b`
(junk-free): the first longest common block, as `(besti, bestj, bestsize)`. -/
def find_longest_match (a b : Str) : Nat × Nat × Nat :=
  flmAux b a 0 [] (0, 0, 0)

/-- Total size of the matching blocks of `get_matching_blocks`
(the recursive split around the longest match), with explicit fuel;
`a.length + 1` fuel always suffices since every recursive call strictly
shortens `a`. -/
def gMatchesF : Nat → Str → Str → Nat
  | 0, _, _ => 0
  | fuel + 1, a, b =>
      let m := find_longest_match a b
      if m.2.2 = 0 then 0
      else
        gMatchesF fuel (a.take m.1) (b.take m.2.1) + m.2.2 +
          gMatchesF fuel (a.drop (m.1 + m.2.2)) (b.drop (m.2.1 + m.2.2))

/-- Number of matched characters between `a` and `b`
(the `matches` of `SequenceMatcher.ratio`). -/
def gMatches (a b : Str) : Nat := gMatchesF (a.length + 1) a b

/-- The `(2 * matches, total length)` pair whose quotient is
`SequenceMatcher.ratio()` (with the convention that a zero total length
means ratio `1.0`, as in `_calculate_ratio`).  Scores are kept as exact
numerator/denominator pairs and compared by cross-multiplication; for the
string lengths handled here that agrees with CPython's double-precision
comparisons (distinct ratios with denominators this small never collide as
doubles, and the double nearest `0.85` lies below `17/20`, so the
`>= cutoff` filter is inclusive exactly at ratio `17/20`). -/
def ratioPair (a b : Str) : Nat × Nat :=
  (2 * gMatches a b, a.length + b.length)

/-- Numerator of the score of a `(m, t)` pair (`1/1` when `t = 0`). -/
def scoreNum (p : Nat × Nat) : Nat := if p.2 = 0 then 1 else p.1

/-- Denominator of the score of a `(m, t)` pair (`1/1` when `t = 0`). -/
def scoreDen (p : Nat × Nat) : Nat := if p.2 = 0 then 1 else p.2

/-- `score p < score q`, by cross-multiplication. -/
def scoreLtB (p q : Nat × Nat) : Bool :=
  scoreNum p * scoreDen q < scoreNum q * scoreDen p

/-- `score p = score q`, by cross-multiplication. -/
def scoreEqB (p q : Nat × Nat) : Bool :=
  scoreNum p * scoreDen q == scoreNum q * scoreDen p

/-- `SequenceMatcher.ratio()` as a rational number (used in statements;
the algorithm itself compares `ratioPair`s exactly). -/
def pyRatio (a b : Str) : ℚ :=
  if a.length + b.length = 0 then 1
  else (2 * gMatches a b : ℚ) / (a.length + b.length)

/-- Python string comparison (`<`): lexicographic by code point, a strict
prefix comparing smaller. -/
def strLt : Str → Str → Bool
  | [], [] => false
  | [], _ :: _ => true
  | _ :: _, [] => false
  | a :: as, b :: bs => if a < b then true else if b < a then false else strLt as bs

/-- `(score₁, x₁) ≥ (score₂, x₂)` in Python tuple order: the comparison
`heapq.nlargest` sorts by. -/
def scoreGe (p q : (Nat × Nat) × Str) : Bool :=
  !(scoreLtB p.1 q.1 || (scoreEqB p.1 q.1 && strLt p.2 q.2))

/-- Insert into a descending-sorted list, after every element whose key is
`≥` — the stable placement `heapq.nlargest` produces. -/
def insertDesc (p : (Nat × Nat) × Str) :
    List ((Nat × Nat) × Str) → List ((Nat × Nat) × Str)
  | [] => [p]
  | q :: rest => if scoreGe q p then q :: insertDesc p rest else p :: q :: rest

/-- Stable descending sort by `(score, string)`, the order of
`heapq.nlargest(n, [(score, x), ...])`. -/
def sortDesc (l : List ((Nat × Nat) × Str)) : List ((Nat × Nat) × Str) :=
  l.foldl (fun acc p => insertDesc p acc) []

/-- `difflib.get_close_matches(word, possibilities, n, cutoff)`: keep the
possibilities whose ratio to `word` clears the cutoff, then the `n` best
in descending `(score, string)` order. -/
def get_close_matches (word : Str) (poss : List Str) (n : Nat)
    (cutoff : Nat × Nat) : List Str :=
  let scored := (poss.filter fun x => !scoreLtB (ratioPair x word) cutoff).map
    fun x => (ratioPair x word, x)
  ((sortDesc scored).take n).map (·.2)

/-!
### The fuzzy tier, the merger, and `_ranked_matches`
-/

/-- Lookup in the normalized-name → rows maps (`dict.get(k, [])`). -/
def mapGet : List (Str × List Row) → Str → List Row
  | [], _ => []
  | p :: ps, k => if p.1 = k then p.2 else mapGet ps k

/-- `m.setdefault(k, []).append(r)`: append `r` under key `k`, keeping
insertion order of keys. -/
def mapAdd : List (Str × List Row) → Str → Row → List (Str × List Row)
  | [], k, r => [(k, [r])]
  | p :: ps, k, r =>
      if p.1 = k then (p.1, p.2 ++ [r]) :: ps else p :: mapAdd ps k r

/-- The reverse map built during the scan of `_ranked_matches`
(`full_map`, `last_map`, `first_map`): every row filed under its
projection, in input order. -/
def buildMap (proj : Row → Str) (rows : List Row) : List (Str × List Row) :=
  rows.foldl (fun m r => mapAdd m (proj r) r) []

/-- The fuzzy bucket (actions.py lines 240–245): close matches of `q`
against the full-name pool, then the last-name pool, then the first-name
pool; each matched string contributes all rows sharing it. -/
def fuzzy_hits (q : Str) (rows : List Row) : List Row :=
  (((get_close_matches q (rows.map nfullOf) 5 (85, 100)).map
      (mapGet (buildMap nfullOf rows))).flatten) ++
  (((get_close_matches q (rows.map nlOf) 5 (85, 100)).map
      (mapGet (buildMap nlOf rows))).flatten) ++
  (((get_close_matches q (rows.map nfOf) 5 (85, 100)).map
      (mapGet (buildMap nfOf rows))).flatten)

/-- The dedup key of the merger: `(r[0] or "").lower()`. -/
def keyOf (r : Row) : Str := pyLower r.email

/-- The merging loop of `_ranked_matches` (lines 248–256): emit each row
whose key has not been seen, accumulating seen keys. -/
def dedupByKey : List Row → List Str → List Row
  | [], _ => []
  | r :: rs, seen =>
      if keyOf r ∈ seen then dedupByKey rs seen
      else r :: dedupByKey rs (keyOf r :: seen)

/-- The five buckets flattened in priority order. -/
def allBuckets (q : Str) (rows : List Row) : List Row :=
  exact_last q rows ++ exact_first q rows ++ exact_full q rows ++
    sub_hits q rows ++ fuzzy_hits q rows

/-- `_ranked_matches` (actions.py lines 191–256), with the candidate
snapshot passed explicitly: normalize the stripped query, short-circuit on
an empty query, otherwise bucket every row and merge with identifier
dedup. -/
def ranked_matches (query_text : Str) (rows : List Row) : List Row :=
  let q := normalize_greek (pyStrip query_text)
  if q.isEmpty then [] else dedupByKey (allBuckets q rows) []

/-!
### Spec-side definitions (for refinement statements)
-/

/-- The effect of the whole `REPLACEMENTS` pass on a single character. -/
def substC (c : Nat) : Nat :=
  REPLACEMENTS.foldl (fun x p => if x = p.1 then p.2 else x) c

/-- Stated from the specification's wording of the substring tier (§4.3
item 4): some non-empty projection is a substring of the query, or the
non-empty query is a substring of some projection. -/
def substringSpecCond (q : Str) (r : Row) : Prop :=
  (nlOf r ≠ [] ∧ isSub (nlOf r) q = true) ∨
  (nfOf r ≠ [] ∧ isSub (nfOf r) q = true) ∨
  (nfullOf r ≠ [] ∧ isSub (nfullOf r) q = true) ∨
  (q ≠ [] ∧ (isSub q (nlOf r) = true ∨ isSub q (nfOf r) = true ∨
             isSub q (nfullOf r) = true))

instance (q : Str) (r : Row) : Decidable (substringSpecCond q r) := by
  unfold substringSpecCond; infer_instance

/-- Stated from the specification's wording of the merger (§4.4): keep
each element only at the first position where its dedup key occurs. -/
def dedupSpecF : List Row → List Row
  | [] => []
  | r :: rs => r :: dedupSpecF (rs.filter fun x => keyOf x != keyOf r)
termination_by l => l.length
decreasing_by
  exact Nat.lt_succ_of_le (List.length_filter_le _ _)

/-!
### Concrete fixtures used by the example parts of the claims
-/

/-- Candidate A of the spec's precedence example. -/
def rowA : Row :=
  ⟨gstr "a@hua.gr", gstr "Γιώργος", gstr "Παπαδόπουλος",
   [gstr "Γραφείο 2.1", gstr "2109549123"]⟩

/-- Candidate B of the spec's precedence example. -/
def rowB : Row :=
  ⟨gstr "b@hua.gr", gstr "Άννα", gstr "Γιώργος", [gstr "Γραφείο 3.2"]⟩

/-- A candidate whose last-name field carries a leading space. -/
def rowW : Row := ⟨gstr "w@hua.gr", gstr "", gstr " Παπαδοπούλου", []⟩

/-- A candidate matched only through the substring tier. -/
def rowP : Row := ⟨gstr "p@hua.gr", gstr "", gstr "Παπαδοπούλου", []⟩

/-- A malformed candidate: both name fields empty. -/
def rowM : Row := ⟨gstr "m@hua.gr", gstr "", gstr "", []⟩

/-- A candidate at similarity ratio exactly `17/20 = 0.85` to `q085`. -/
def row085 : Row := ⟨gstr "x@hua.gr", gstr "", gstr "abcdefghijklmnopq123", []⟩

/-- A candidate at similarity ratio exactly `21/25 = 0.84` to `q084`. -/
def row084 : Row :=
  ⟨gstr "y@hua.gr", gstr "", gstr "abcdefghijklmnopqrstu1234", []⟩

/-- Query at ratio `0.85` to `row085`'s normalized last name. -/
def q085 : Str := gstr "abcdefghijklmnopqrst"

/-- Query at ratio `0.84` to `row084`'s normalized last name. -/
def q084 : Str := gstr "abcdefghijklmnopqrstuvwxy"

/-!
### Structure of `normalize_greek`
-/

theorem nfOf_eq (r : Row) : nfOf r = normalize_greek r.f_name := by
  simp only [nfOf, norm_parts]

theorem nlOf_eq (r : Row) : nlOf r = normalize_greek r.l_name := by
  simp only [nlOf, norm_parts]

theorem nfullOf_eq (r : Row) :
    nfullOf r = normalize_greek (display_name r.f_name r.l_name) := by
  simp only [nfullOf, norm_parts]

theorem foldl_step_eq_self (ps : List (Nat × Nat)) (c : Nat)
    (h : ∀ p ∈ ps, c ≠ p.1) :
    ps.foldl (fun x p => if x = p.1 then p.2 else x) c = c := by
  induction ps with
  | nil => rfl
  | cons p ps ih =>
      simp only [List.foldl_cons]
      rw [if_neg (h p (by simp))]
      exact ih fun p' hp' => h p' (by simp [hp'])

theorem foldl_step_mem (ps : List (Nat × Nat)) (c : Nat) :
    ps.foldl (fun x p => if x = p.1 then p.2 else x) c = c ∨
      ps.foldl (fun x p => if x = p.1 then p.2 else x) c ∈ ps.map Prod.snd := by
  induction ps generalizing c with
  | nil => exact Or.inl rfl
  | cons p ps ih =>
      simp only [List.foldl_cons]
      by_cases hc : c = p.1
      · rw [if_pos hc]
        rcases ih p.2 with h | h
        · right; simp [h]
        · right; simp; right; simpa using h
      · rw [if_neg hc]
        rcases ih c with h | h
        · exact Or.inl h
        · right; simp; right; simpa using h

theorem foldl_pyReplace_eq_map (ps : List (Nat × Nat)) (s : Str) :
    ps.foldl (fun t p => pyReplace t p.1 p.2) s =
      s.map fun c => ps.foldl (fun x p => if x = p.1 then p.2 else x) c := by
  induction ps generalizing s with
  | nil => simp
  | cons p ps ih =>
      simp only [List.foldl_cons]
      rw [ih]
      simp [pyReplace, List.map_map]

theorem normalize_eq_lower_map (s : Str) :
    normalize_greek s = pyLowerGo false (s.map substC) := by
  unfold normalize_greek pyLower substC
  rw [foldl_pyReplace_eq_map]

theorem key_is : ∀ p ∈ REPLACEMENTS,
    p.1 = 940 ∨ p.1 = 943 ∨ p.1 = 970 ∨ p.1 = 912 ∨ p.1 = 974 ∨ p.1 = 944 ∨
    p.1 = 971 ∨ p.1 = 973 ∨ p.1 = 941 ∨ p.1 = 972 ∨ p.1 = 942 ∨ p.1 = 902 ∨
    p.1 = 906 ∨ p.1 = 938 ∨ p.1 = 911 ∨ p.1 = 939 ∨ p.1 = 910 ∨ p.1 = 904 ∨
    p.1 = 908 ∨ p.1 = 905 := by decide

theorem substC_keys_ne : ∀ p ∈ REPLACEMENTS, substC p.1 ≠ p.1 := by decide

theorem values_are : ∀ p ∈ REPLACEMENTS,
    p.2 = 945 ∨ p.2 = 953 ∨ p.2 = 969 ∨ p.2 = 965 ∨ p.2 = 949 ∨ p.2 = 959 ∨
    p.2 = 951 := by decide

theorem pyLowerChar_fixed_of (c : Nat) (h1 : ¬(65 ≤ c ∧ c ≤ 90))
    (h2 : ¬(902 ≤ c ∧ c ≤ 939)) : pyLowerChar c = c := by
  unfold pyLowerChar
  split_ifs <;> omega

theorem lowerChar_nonkey (c : Nat) (hc : ∀ p ∈ REPLACEMENTS, c ≠ p.1) :
    (pyLowerChar c = c ∧ c ≠ 931) ∨
    (97 ≤ pyLowerChar c ∧ pyLowerChar c ≤ 122) ∨
    (945 ≤ pyLowerChar c ∧ pyLowerChar c ≤ 961) ∨
    (963 ≤ pyLowerChar c ∧ pyLowerChar c ≤ 969) := by
  simp [REPLACEMENTS] at hc
  unfold pyLowerChar
  split_ifs <;> omega

theorem substC_eq_self_of (c : Nat) (hc : ∀ p ∈ REPLACEMENTS, c ≠ p.1) :
    substC c = c :=
  foldl_step_eq_self _ _ hc

theorem nonkey_of_substC_eq (c : Nat) (h : substC c = c) :
    ∀ p ∈ REPLACEMENTS, c ≠ p.1 := by
  intro p hp heq
  exact substC_keys_ne p hp (heq ▸ h)

theorem nonkey_of_range (c : Nat)
    (h : (97 ≤ c ∧ c ≤ 122) ∨ (945 ≤ c ∧ c ≤ 961) ∨ (963 ≤ c ∧ c ≤ 969)) :
    ∀ p ∈ REPLACEMENTS, c ≠ p.1 := by
  intro p hp
  have := key_is p hp
  omega

/-- Every character a `normalize_greek` output can contain is a fixed
point of the replacement pass and of lower-casing, and is never an
upper-case sigma. -/
theorem good_output (o : Nat)
    (ho : o = 962 ∨ ∃ c, o = pyLowerChar (substC c)) :
    substC o = o ∧ pyLowerChar o = o ∧ o ≠ 931 := by
  rcases ho with h | ⟨c, h⟩
  · rw [h]
    exact ⟨by decide, by decide, by decide⟩
  · rcases foldl_step_mem REPLACEMENTS c with hm | hm
    · have hm' : substC c = c := hm
      rw [hm'] at h
      rw [h]
      have hc := nonkey_of_substC_eq c hm'
      rcases lowerChar_nonkey c hc with ⟨he, hne⟩ | hr | hr | hr
      · rw [he]
        exact ⟨hm', he, hne⟩
      all_goals
        clear hm hm' hc h
        revert hr
        generalize pyLowerChar c = y
        intro hr
        refine ⟨substC_eq_self_of _ (nonkey_of_range _ (by tauto)),
          pyLowerChar_fixed_of _ (by omega) (by omega), by omega⟩
    · have hmem : substC c ∈ REPLACEMENTS.map Prod.snd := hm
      simp only [List.mem_map] at hmem
      obtain ⟨p, hp, hpe⟩ := hmem
      rcases values_are p hp with hv | hv | hv | hv | hv | hv | hv <;>
        rw [hv] at hpe <;> rw [← hpe] at h <;> rw [h] <;> decide

theorem mem_pyLowerGo (b : Bool) (l : Str) (o : Nat)
    (ho : o ∈ pyLowerGo b l) :
    o = 962 ∨ ∃ c ∈ l, o = pyLowerChar c := by
  induction l generalizing b with
  | nil => simp [pyLowerGo] at ho
  | cons c cs ih =>
      simp only [pyLowerGo, List.mem_cons] at ho
      rcases ho with ho | ho
      · split at ho
        · exact Or.inl ho
        · exact Or.inr ⟨c, by simp, ho⟩
      · rcases ih _ ho with h | ⟨c', hc', h⟩
        · exact Or.inl h
        · exact Or.inr ⟨c', by simp [hc'], h⟩

theorem pyLowerGo_fixed (b : Bool) (l : Str)
    (h : ∀ c ∈ l, pyLowerChar c = c ∧ c ≠ 931) : pyLowerGo b l = l := by
  induction l generalizing b with
  | nil => rfl
  | cons c cs ih =>
      have hc := h c (by simp)
      simp only [pyLowerGo]
      rw [if_neg (by simp [hc.2]), hc.1,
        ih _ fun c' hc' => h c' (by simp [hc'])]

theorem map_substC_fixed (l : Str) (h : ∀ c ∈ l, substC c = c) :
    l.map substC = l := by
  induction l with
  | nil => rfl
  | cons c cs ih => simp [h c (by simp), ih fun c' hc' => h c' (by simp [hc'])]

/-- Every character of a `normalize_greek` output is fixed by the
replacement pass and by lower-casing, and is not `Σ`. -/
theorem normalize_chars_good (s : Str) (o : Nat)
    (ho : o ∈ normalize_greek s) :
    substC o = o ∧ pyLowerChar o = o ∧ o ≠ 931 := by
  rw [normalize_eq_lower_map] at ho
  rcases mem_pyLowerGo _ _ _ ho with h | ⟨c, hc, h⟩
  · exact good_output _ (Or.inl h)
  · simp only [List.mem_map] at hc
    obtain ⟨c₀, _, hceq⟩ := hc
    rw [← hceq] at h
    exact good_output _ (Or.inr ⟨c₀, h⟩)

/-!
### The claims
-/

/-- C5.  Normalization idempotence and purity: `normalize_greek` is
idempotent on every string, and on the concrete example
`normalize_greek "Βαρλάμης" = normalize_greek "βαρλαμης" = "βαρλαμης"`.
(As a Lean function of its argument it is pure by construction.) -/
theorem c5_normalize_idempotent :
    (∀ x : Str, normalize_greek (normalize_greek x) = normalize_greek x) ∧
    normalize_greek (gstr "Βαρλάμης") = gstr "βαρλαμης" ∧
    normalize_greek (gstr "βαρλαμης") = gstr "βαρλαμης" := by
  refine ⟨fun x => ?_, by decide, by decide⟩
  rw [normalize_eq_lower_map (normalize_greek x)]
  rw [map_substC_fixed _ fun c hc => (normalize_chars_good x c hc).1]
  exact pyLowerGo_fixed _ _ fun c hc =>
    ⟨(normalize_chars_good x c hc).2.1, (normalize_chars_good x c hc).2.2⟩

theorem ranked_matches_empty (raw : Str) (rows : List Row)
    (h : pyStrip raw = []) : ranked_matches raw rows = [] := by
  unfold ranked_matches
  rw [h]
  rfl

/-- C6.  Empty-query short-circuit: when the raw query strips to the
empty string, `_ranked_matches` returns `[]` for every candidate list —
the result does not depend on the candidate snapshot at all, matching the
early return placed before the snapshot read. -/
theorem c6_empty_query (raw : Str) (rows : List Row)
    (h : pyStrip raw = []) : ranked_matches raw rows = [] :=
  ranked_matches_empty raw rows h

/-- Witness for C6 at a whitespace-only query and a non-empty snapshot. -/
theorem c6_empty_query_witness :
    pyStrip (gstr "  ") = [] ∧ ranked_matches (gstr "  ") [rowA, rowB] = [] :=
  ⟨by decide, c6_empty_query (gstr "  ") [rowA, rowB] (by decide)⟩

set_option maxRecDepth 8000 in
/-- C1.  Tier precedence: querying `"Γιώργος"` against `[A, B]` returns
`[B, A]` (B's exact last name beats A's exact first name), and in general
the four scan buckets are produced by the first matching condition, so no
row occurrence can land in two of them. -/
theorem c1_tier_precedence :
    ranked_matches (gstr "Γιώργος") [rowA, rowB] = [rowB, rowA] ∧
    ∀ (q : Str) (rows : List Row) (r : Row),
      (r ∈ exact_last q rows →
        r ∉ exact_first q rows ∧ r ∉ exact_full q rows ∧ r ∉ sub_hits q rows) ∧
      (r ∈ exact_first q rows →
        r ∉ exact_full q rows ∧ r ∉ sub_hits q rows) ∧
      (r ∈ exact_full q rows → r ∉ sub_hits q rows) := by
  refine ⟨by decide, fun q rows r => ?_⟩
  simp only [exact_last, exact_first, exact_full, sub_hits, List.mem_filter,
    Bool.and_eq_true, Bool.not_eq_true']
  refine ⟨fun h => ?_, fun h => ?_, fun h => ?_⟩
  · simp [h.2]
  · simp [h.2.2]
  · simp [h.2.2]

/-- Witness for C1: the concrete resolution, and the exclusivity applied
to B (which sits in the exact-last bucket, hence not in exact-first). -/
theorem c1_tier_precedence_witness :
    ranked_matches (gstr "Γιώργος") [rowA, rowB] = [rowB, rowA] ∧
    rowB ∉ exact_first (gstr "γιωργος") [rowA, rowB] :=
  ⟨c1_tier_precedence.1,
   ((c1_tier_precedence.2 (gstr "γιωργος") [rowA, rowB] rowB).1 (by decide)).1⟩

/-!
### Whitespace profile of normalization and stripping (for C10)
-/

theorem headD_map_ne {α β : Type} (f : α → β) (l : List α) (d : β) (d' : α)
    (h : l ≠ []) : (l.map f).headD d = f (l.headD d') := by
  cases l with
  | nil => exact absurd rfl h
  | cons a t => rfl

theorem headD_append_left {α : Type} (l₁ l₂ : List α) (d : α) (h : l₁ ≠ []) :
    (l₁ ++ l₂).headD d = l₁.headD d := by
  cases l₁ with
  | nil => exact absurd rfl h
  | cons a t => rfl

theorem getLastD_reverse {α : Type} (l : List α) (d : α) :
    l.reverse.getLastD d = l.headD d := by
  cases l with
  | nil => rfl
  | cons a t =>
      rw [List.getLastD_eq_getLast?, List.getLast?_reverse]
      rfl

theorem getLastD_eq_headD_reverse {α : Type} (l : List α) (d : α) :
    l.getLastD d = l.reverse.headD d := by
  have := getLastD_reverse l.reverse d
  rwa [List.reverse_reverse] at this

theorem getLastD_map_ne {α β : Type} (f : α → β) (l : List α) (d : β)
    (d' : α) (h : l ≠ []) : (l.map f).getLastD d = f (l.getLastD d') := by
  rw [getLastD_eq_headD_reverse, getLastD_eq_headD_reverse,
    ← List.map_reverse]
  exact headD_map_ne f l.reverse d d' (by simpa using h)

theorem dropWhile_headD_not (p : Nat → Bool) (l : Str)
    (h : l.dropWhile p ≠ []) : p ((l.dropWhile p).headD 0) = false := by
  induction l with
  | nil => simp at h
  | cons a t ih =>
      by_cases ha : p a = true
      · rw [List.dropWhile_cons_of_pos ha] at h ⊢
        exact ih h
      · rw [List.dropWhile_cons_of_neg ha]
        simpa using ha

theorem pyStrip_decomp (s : Str) :
    ∃ t, s.dropWhile isPySpace = pyStrip s ++ t := by
  obtain ⟨t, ht⟩ := List.dropWhile_suffix
    (l := (s.dropWhile isPySpace).reverse) isPySpace
  refine ⟨t.reverse, ?_⟩
  have := congrArg List.reverse ht
  simp only [List.reverse_append, List.reverse_reverse] at this
  rw [← this]
  rfl

theorem pyStrip_headD (s : Str) (h : pyStrip s ≠ []) :
    isPySpace ((pyStrip s).headD 0) = false := by
  obtain ⟨t, ht⟩ := pyStrip_decomp s
  have hm : s.dropWhile isPySpace ≠ [] := by
    rw [ht]
    simp [h]
  have hd := dropWhile_headD_not isPySpace s hm
  rw [ht, headD_append_left _ _ _ h] at hd
  exact hd

theorem pyStrip_getLastD (s : Str) (h : pyStrip s ≠ []) :
    isPySpace ((pyStrip s).getLastD 0) = false := by
  have hyne : (s.dropWhile isPySpace).reverse.dropWhile isPySpace ≠ [] := by
    intro hh
    apply h
    show ((s.dropWhile isPySpace).reverse.dropWhile isPySpace).reverse = []
    rw [hh]
    rfl
  have hd := dropWhile_headD_not isPySpace (s.dropWhile isPySpace).reverse hyne
  show isPySpace ((dropEndWhile isPySpace (s.dropWhile isPySpace)).getLastD 0)
    = false
  rw [dropEndWhile, getLastD_reverse]
  exact hd

theorem lowerChar_space (c : Nat) :
    isPySpace (pyLowerChar c) = isPySpace c := by
  unfold pyLowerChar
  split_ifs with h1 h2 h3 h4 h5 h6 h7 <;>
    simp only [isPySpace, decide_eq_decide] <;> omega

theorem substC_space (c : Nat) : isPySpace (substC c) = isPySpace c := by
  by_cases hk : ∀ p ∈ REPLACEMENTS, c ≠ p.1
  · rw [substC_eq_self_of c hk]
  · push_neg at hk
    obtain ⟨p, hp, hc⟩ := hk
    rw [hc]
    rcases key_is p hp with h | h | h | h | h | h | h | h | h | h | h | h |
      h | h | h | h | h | h | h | h <;> rw [h] <;> decide

theorem pyLowerGo_space (b : Bool) (l : Str) :
    (pyLowerGo b l).map isPySpace = l.map isPySpace := by
  induction l generalizing b with
  | nil => rfl
  | cons c cs ih =>
      simp only [pyLowerGo, List.map_cons]
      congr 1
      · split_ifs with h
        · rw [h.1]
          decide
        · exact lowerChar_space c
      · exact ih _

theorem map_substC_space (s : Str) :
    (s.map substC).map isPySpace = s.map isPySpace := by
  induction s with
  | nil => rfl
  | cons c cs ih => simp only [List.map_cons, ih, substC_space c]

/-- Normalization preserves the character-wise whitespace profile of a
string (in particular its length and the positions of spaces). -/
theorem norm_space (s : Str) :
    (normalize_greek s).map isPySpace = s.map isPySpace := by
  rw [normalize_eq_lower_map, pyLowerGo_space, map_substC_space]

set_option maxRecDepth 8000 in
set_option maxHeartbeats 1600000 in
/-- C10.  Untrimmed name fields in the exact tiers: a candidate whose raw
last-name field starts or ends with whitespace can never be in the
exact-last bucket (its normalized last name keeps the whitespace while
the query is stripped), while its whitespace-stripped full-name
projection can still exact-match, as the concrete `rowW` example shows. -/
theorem c10_untrimmed_last_name :
    (∀ (raw : Str) (rows : List Row) (r : Row), r.l_name ≠ [] →
      (isPySpace (r.l_name.headD 0) = true ∨
       isPySpace (r.l_name.getLastD 0) = true) →
      r ∉ exact_last (normalize_greek (pyStrip raw)) rows) ∧
    exact_last (normalize_greek (pyStrip (gstr "Παπαδοπούλου"))) [rowW] = [] ∧
    exact_full (normalize_greek (pyStrip (gstr "Παπαδοπούλου"))) [rowW]
      = [rowW] ∧
    ranked_matches (gstr "Παπαδοπούλου") [rowW] = [rowW] := by
  refine ⟨?_, by decide, by decide, by decide⟩
  intro raw rows r hne hsp hmem
  rw [exact_last, List.mem_filter] at hmem
  have hb := hmem.2
  rw [bLast, Bool.and_eq_true] at hb
  have hqe : normalize_greek (pyStrip raw) = nlOf r := by
    have := hb.2
    simpa using this
  have hnl : nlOf r = normalize_greek r.l_name := nlOf_eq r
  have hprof : (pyStrip raw).map isPySpace = r.l_name.map isPySpace := by
    have h1 := norm_space (pyStrip raw)
    have h2 := norm_space r.l_name
    rw [← h1, ← h2, hqe, hnl]
  have hqne : nlOf r ≠ [] := by
    intro h0
    have h' := hb.1
    rw [h0] at h'
    simp at h'
  have hstrip_ne : pyStrip raw ≠ [] := by
    intro h0
    apply hqne
    rw [← hqe, h0]
    rfl
  rcases hsp with hh | hh
  · have hsh := pyStrip_headD raw hstrip_ne
    have hc := congrArg (fun l => l.headD false) hprof
    simp only [headD_map_ne isPySpace _ false 0 hstrip_ne,
      headD_map_ne isPySpace _ false 0 hne] at hc
    rw [hsh, hh] at hc
    exact Bool.noConfusion hc
  · have hsl := pyStrip_getLastD raw hstrip_ne
    have hc := congrArg (fun l => l.getLastD false) hprof
    simp only [getLastD_map_ne isPySpace _ false 0 hstrip_ne,
      getLastD_map_ne isPySpace _ false 0 hne] at hc
    rw [hsl, hh] at hc
    exact Bool.noConfusion hc

/-- Witness for C10: `rowW`'s last name `" Παπαδοπούλου"` starts with a
space, so the general part applies to it, and the concrete equalities. -/
theorem c10_untrimmed_last_name_witness :
    rowW ∉ exact_last (normalize_greek (pyStrip (gstr "Παπαδοπούλου")))
      [rowW] ∧
    ranked_matches (gstr "Παπαδοπούλου") [rowW] = [rowW] :=
  ⟨c10_untrimmed_last_name.1 (gstr "Παπαδοπούλου") [rowW] rowW (by decide)
    (Or.inl (by decide)), c10_untrimmed_last_name.2.2.2⟩

/-!
### The merging loop (for C2, C8, C9)
-/

theorem normalize_length (s : Str) :
    (normalize_greek s).length = s.length := by
  have := congrArg List.length (norm_space s)
  simpa using this

theorem normalize_ne_nil (s : Str) (h : s ≠ []) : normalize_greek s ≠ [] := by
  intro h0
  apply h
  have := congrArg List.length h0
  rw [normalize_length] at this
  exact List.length_eq_zero.mp this

/-- For a non-empty stripped query, `_ranked_matches` is the merging loop
run over the five concatenated buckets. -/
theorem ranked_matches_eq (raw : Str) (rows : List Row)
    (h : pyStrip raw ≠ []) :
    ranked_matches raw rows =
      dedupByKey (allBuckets (normalize_greek (pyStrip raw)) rows) [] := by
  have h1 : (normalize_greek (pyStrip raw)).isEmpty = false := by
    have h2 := normalize_ne_nil _ h
    cases h0 : normalize_greek (pyStrip raw) with
    | nil => exact absurd h0 h2
    | cons a t => rfl
  simp only [ranked_matches, h1, Bool.false_eq_true, if_false]

theorem dedupByKey_eq_spec (l : List Row) (seen : List Str) :
    dedupByKey l seen =
      dedupSpecF (l.filter fun r => decide (keyOf r ∉ seen)) := by
  induction l generalizing seen with
  | nil => simp [dedupByKey, dedupSpecF]
  | cons r rs ih =>
      rw [dedupByKey, List.filter_cons]
      by_cases hk : keyOf r ∈ seen
      · rw [if_pos hk, if_neg (by simp [hk]), ih]
      · rw [if_neg hk, if_pos (by simp [hk]), dedupSpecF, ih]
        congr 1
        rw [List.filter_filter]
        apply congrArg
        apply List.filter_congr
        intro x _
        simp only [List.mem_cons, decide_not, Bool.and_comm]
        cases hxr : keyOf x == keyOf r with
        | true =>
            simp only [bne, hxr, Bool.not_true, Bool.false_and]
            simp [beq_iff_eq.mp hxr]
        | false =>
            simp only [bne, hxr, Bool.not_false, Bool.true_and]
            have : ¬ keyOf x = keyOf r := by
              intro he
              rw [he] at hxr
              simp at hxr
            simp [this]

theorem dedupByKey_keys (l : List Row) (seen : List Str) :
    ((dedupByKey l seen).map keyOf).Nodup ∧
    ∀ r ∈ dedupByKey l seen, keyOf r ∉ seen := by
  induction l generalizing seen with
  | nil => exact ⟨List.nodup_nil, by simp [dedupByKey]⟩
  | cons r rs ih =>
      rw [dedupByKey]
      by_cases hk : keyOf r ∈ seen
      · rw [if_pos hk]
        exact ih seen
      · rw [if_neg hk]
        obtain ⟨h1, h2⟩ := ih (keyOf r :: seen)
        refine ⟨?_, ?_⟩
        · simp only [List.map_cons, List.nodup_cons]
          refine ⟨?_, h1⟩
          intro hmem
          simp only [List.mem_map] at hmem
          obtain ⟨x, hx, hxe⟩ := hmem
          exact (h2 x hx) (by simp [hxe])
        · intro x hx
          rcases List.mem_cons.mp hx with rfl | hx'
          · exact hk
          · intro hxs
            exact (h2 x hx') (by simp [hxs])

theorem dedupByKey_sublist (l : List Row) (seen : List Str) :
    List.Sublist (dedupByKey l seen) l := by
  induction l generalizing seen with
  | nil => simp [dedupByKey]
  | cons r rs ih =>
      rw [dedupByKey]
      by_cases hk : keyOf r ∈ seen
      · rw [if_pos hk]
        exact List.Sublist.cons r (ih seen)
      · rw [if_neg hk]
        exact List.Sublist.cons₂ r (ih _)

/-- C2.  Deduplicating merge: for a non-empty stripped query the
resolver's output is the first-occurrence dedup (by lower-cased
identifier) of the five buckets flattened in priority order, its keys are
pairwise distinct, and it is a sublist of the flattened buckets (so
relative order within and across buckets is preserved). -/
theorem c2_dedup_merge (raw : Str) (rows : List Row)
    (h : pyStrip raw ≠ []) :
    ranked_matches raw rows =
      dedupSpecF (allBuckets (normalize_greek (pyStrip raw)) rows) ∧
    ((ranked_matches raw rows).map keyOf).Nodup ∧
    List.Sublist (ranked_matches raw rows)
      (allBuckets (normalize_greek (pyStrip raw)) rows) := by
  rw [ranked_matches_eq raw rows h]
  refine ⟨?_, (dedupByKey_keys _ _).1, dedupByKey_sublist _ _⟩
  rw [dedupByKey_eq_spec]
  congr 1
  apply List.filter_eq_self.mpr
  intro x _
  simp

/-- Witness for C2 at the concrete precedence example: the output
`[B, A]` is the spec-side dedup of the flattened buckets. -/
theorem c2_dedup_merge_witness :
    ranked_matches (gstr "Γιώργος") [rowA, rowB] =
      dedupSpecF (allBuckets (normalize_greek (pyStrip (gstr "Γιώργος")))
        [rowA, rowB]) :=
  (c2_dedup_merge (gstr "Γιώργος") [rowA, rowB] (by decide)).1

theorem not_isEmpty_iff (l : Str) : (!l.isEmpty) = true ↔ l ≠ [] := by
  cases l <;> simp

theorem isEmpty_false_iff (l : Str) : l.isEmpty = false ↔ l ≠ [] := by
  cases l <;> simp

set_option maxRecDepth 8000 in
/-- C4.  Substring symmetry: a candidate that failed every exact tier is
in the substring bucket exactly when the spec's symmetric substring
condition holds (some non-empty projection occurs in the query, or the
non-empty query occurs in a projection); concretely, a query with extra
tokens around the last name matches, and so does a query that is a proper
infix of the last name. -/
theorem c4_substring_symmetry :
    (∀ (q : Str) (rows : List Row) (r : Row), q ≠ [] →
      (r ∈ sub_hits q rows ↔
        r ∈ rows ∧ bLast q r = false ∧ bFirst q r = false ∧
        bFull q r = false ∧ substringSpecCond q r)) ∧
    sub_hits (normalize_greek (pyStrip (gstr "Μαρία Παπαδοπούλου"))) [rowP]
      = [rowP] ∧
    sub_hits (normalize_greek (pyStrip (gstr "αδοπουλ"))) [rowP] = [rowP] := by
  refine ⟨fun q rows r hq => ?_, by decide, by decide⟩
  rw [sub_hits, List.mem_filter]
  simp only [Bool.and_eq_true, Bool.not_eq_true', bSub, Bool.or_eq_true,
    substringSpecCond, isEmpty_false_iff]
  generalize bLast q r = b1
  generalize bFirst q r = b2
  generalize bFull q r = b3
  generalize isSub (nlOf r) q = s1
  generalize isSub (nfOf r) q = s2
  generalize isSub (nfullOf r) q = s3
  generalize isSub q (nlOf r) = s4
  generalize isSub q (nfOf r) = s5
  generalize isSub q (nfullOf r) = s6
  generalize nlOf r = nA
  generalize nfOf r = nB
  generalize nfullOf r = nC
  tauto

set_option maxRecDepth 8000 in
/-- Witness for C4: the extra-token query lands `rowP` in the substring
bucket via the equivalence. -/
theorem c4_substring_symmetry_witness :
    rowP ∈ sub_hits (normalize_greek (pyStrip (gstr "Μαρία Παπαδοπούλου")))
      [rowP] :=
  (c4_substring_symmetry.1 (normalize_greek (pyStrip
    (gstr "Μαρία Παπαδοπούλου"))) [rowP] rowP (by decide)).mpr (by decide)

/-!
### The reverse maps and the fuzzy bucket (for C7, C8)
-/

theorem mapGet_mapAdd (m : List (Str × List Row)) (k0 : Str) (r0 : Row)
    (k : Str) :
    mapGet (mapAdd m k0 r0) k =
      if k = k0 then mapGet m k ++ [r0] else mapGet m k := by
  induction m with
  | nil =>
      by_cases hk : k = k0
      · simp [mapAdd, mapGet, hk]
      · simp [mapAdd, mapGet, hk, Ne.symm hk]
  | cons p ps ih =>
      by_cases hp : p.1 = k0
      · rw [mapAdd, if_pos hp]
        by_cases hk : p.1 = k
        · have hkk : k = k0 := by rw [← hk, hp]
          rw [if_pos hkk]
          simp [mapGet, hk]
        · have hkk : ¬ k = k0 := by
            intro he
            exact hk (by rw [hp, he])
          rw [if_neg hkk]
          simp [mapGet, hk]
      · rw [mapAdd, if_neg hp]
        by_cases hk : p.1 = k
        · have hkk : ¬ k = k0 := by
            intro he
            exact hp (by rw [hk, he])
          rw [if_neg hkk]
          simp [mapGet, hk]
        · simp [mapGet, hk, ih]

theorem mapGet_buildMap (proj : Row → Str) (rows : List Row) (k : Str) :
    mapGet (buildMap proj rows) k =
      rows.filter fun r => decide (proj r = k) := by
  suffices h : ∀ m, mapGet (rows.foldl (fun m r => mapAdd m (proj r) r) m) k
      = mapGet m k ++ rows.filter (fun r => decide (proj r = k)) by
    have h0 := h []
    simpa [buildMap, mapGet] using h0
  induction rows with
  | nil => intro m; simp [mapGet]
  | cons r rs ih =>
      intro m
      simp only [List.foldl_cons, List.filter_cons]
      rw [ih (mapAdd m (proj r) r), mapGet_mapAdd]
      by_cases hr : proj r = k
      · rw [if_pos hr.symm]
        simp [hr]
      · rw [if_neg (Ne.symm hr)]
        simp [hr]

theorem mem_mapGet_buildMap (proj : Row → Str) (rows : List Row) (k : Str)
    (r : Row) (h : r ∈ mapGet (buildMap proj rows) k) :
    r ∈ rows ∧ proj r = k := by
  rw [mapGet_buildMap] at h
  have h' := List.mem_filter.mp h
  exact ⟨h'.1, of_decide_eq_true h'.2⟩

theorem mem_insertDesc (p x : (Nat × Nat) × Str)
    (l : List ((Nat × Nat) × Str)) :
    x ∈ insertDesc p l ↔ x = p ∨ x ∈ l := by
  induction l with
  | nil => simp [insertDesc]
  | cons q rest ih =>
      simp only [insertDesc]
      split_ifs with h
      · rw [List.mem_cons, ih, List.mem_cons]
        tauto
      · rw [List.mem_cons]

theorem mem_sortDesc (x : (Nat × Nat) × Str) (l : List ((Nat × Nat) × Str)) :
    x ∈ sortDesc l ↔ x ∈ l := by
  suffices h : ∀ acc, x ∈ l.foldl (fun acc p => insertDesc p acc) acc ↔
      x ∈ acc ∨ x ∈ l by
    simpa [sortDesc] using h []
  induction l with
  | nil => intro acc; simp
  | cons p ps ih =>
      intro acc
      simp only [List.foldl_cons, ih (insertDesc p acc), mem_insertDesc,
        List.mem_cons]
      tauto

/-- Every string returned by `get_close_matches` comes from the pool and
passed the cutoff filter. -/
theorem mem_close_matches (word : Str) (poss : List Str) (n : Nat)
    (cutoff : Nat × Nat) (x : Str)
    (h : x ∈ get_close_matches word poss n cutoff) :
    x ∈ poss ∧ scoreLtB (ratioPair x word) cutoff = false := by
  simp only [get_close_matches, List.mem_map] at h
  obtain ⟨pr, hpr, hx⟩ := h
  have h1 : pr ∈ sortDesc ((poss.filter fun y =>
      !scoreLtB (ratioPair y word) cutoff).map
      fun y => (ratioPair y word, y)) := List.take_subset n _ hpr
  rw [mem_sortDesc] at h1
  simp only [List.mem_map] at h1
  obtain ⟨y, hy, hpr2⟩ := h1
  have h2 := List.mem_filter.mp hy
  have hxy : x = y := by rw [← hx, ← hpr2]
  rw [hxy]
  refine ⟨h2.1, ?_⟩
  have := h2.2
  cases hlt : scoreLtB (ratioPair y word) cutoff
  · rfl
  · rw [hlt] at this
    exact Bool.noConfusion this

theorem mem_flatten_mapGet (proj : Row → Str) (rows : List Row)
    (keys : List Str) (r : Row)
    (h : r ∈ (keys.map (mapGet (buildMap proj rows))).flatten) : r ∈ rows := by
  rw [List.mem_flatten] at h
  obtain ⟨part, hpart, hr⟩ := h
  rw [List.mem_map] at hpart
  obtain ⟨k, _, hk⟩ := hpart
  rw [← hk] at hr
  exact (mem_mapGet_buildMap proj rows k r hr).1

/-- Every row of the fuzzy bucket is a row of the snapshot. -/
theorem fuzzy_hits_subset (q : Str) (rows : List Row) :
    ∀ r ∈ fuzzy_hits q rows, r ∈ rows := by
  intro r hmem
  rw [fuzzy_hits] at hmem
  rcases List.mem_append.mp hmem with h | h
  · rcases List.mem_append.mp h with h' | h'
    · exact mem_flatten_mapGet _ _ _ _ h'
    · exact mem_flatten_mapGet _ _ _ _ h'
  · exact mem_flatten_mapGet _ _ _ _ h

/-- Every row of any bucket is a row of the snapshot. -/
theorem allBuckets_subset (q : Str) (rows : List Row) :
    ∀ r ∈ allBuckets q rows, r ∈ rows := by
  intro r hmem
  rw [allBuckets] at hmem
  rcases List.mem_append.mp hmem with h | h
  · rcases List.mem_append.mp h with h | h
    · rcases List.mem_append.mp h with h | h
      · rcases List.mem_append.mp h with h | h
        · exact List.filter_subset' rows h
        · exact List.filter_subset' rows h
      · exact List.filter_subset' rows h
    · exact List.filter_subset' rows h
  · exact fuzzy_hits_subset q rows r h

/-- C8.  Payload pass-through: every element of the resolver's output is
one of the input candidate records, completely unchanged (membership in
the input list is record equality on every field, identifier and display
payload included); the resolver never constructs a new record. -/
theorem c8_payload_passthrough (raw : Str) (rows : List Row) :
    ∀ r ∈ ranked_matches raw rows, r ∈ rows := by
  intro r hmem
  by_cases h : pyStrip raw = []
  · rw [ranked_matches_empty raw rows h] at hmem
    exact absurd hmem (List.not_mem_nil r)
  · rw [ranked_matches_eq raw rows h] at hmem
    exact allBuckets_subset _ rows r ((dedupByKey_sublist _ _).subset hmem)

set_option maxRecDepth 8000 in
/-- Witness for C8: the output row `rowB` of the concrete resolution is
(with its full payload) an element of the input snapshot. -/
theorem c8_payload_passthrough_witness : rowB ∈ [rowA, rowB] :=
  c8_payload_passthrough (gstr "Γιώργος") [rowA, rowB] rowB (by decide)

/-!
### A malformed candidate never matches (C7)
-/

theorem normalize_nil : normalize_greek [] = [] := rfl

theorem gMatches_nil (b : Str) : gMatches [] b = 0 := rfl

/-- The empty string never clears the `0.85` cutoff against a non-empty
query: its ratio is `0`. -/
theorem close_matches_no_empty (q : Str) (pool : List Str) (hq : q ≠ []) :
    ([] : Str) ∉ get_close_matches q pool 5 (85, 100) := by
  intro hmem
  have h2 := (mem_close_matches _ _ _ _ _ hmem).2
  have hT : q.length ≠ 0 := fun h0 => hq (List.length_eq_zero.mp h0)
  simp only [ratioPair, gMatches_nil, scoreLtB, scoreNum, scoreDen,
    List.length_nil, Nat.zero_add, Nat.mul_zero] at h2
  rw [if_neg hT, if_neg hT] at h2
  norm_num at h2
  exact hq h2

theorem not_mem_flatten_empty (proj : Row → Str) (rows : List Row)
    (q : Str) (pool : List Str) (hq : q ≠ []) (r : Row)
    (hproj : proj r = []) :
    r ∉ ((get_close_matches q pool 5 (85, 100)).map
      (mapGet (buildMap proj rows))).flatten := by
  intro h
  rw [List.mem_flatten] at h
  obtain ⟨part, hpart, hr⟩ := h
  rw [List.mem_map] at hpart
  obtain ⟨k, hkmem, hk⟩ := hpart
  rw [← hk] at hr
  have hpk := (mem_mapGet_buildMap proj rows k r hr).2
  rw [hproj] at hpk
  rw [← hpk] at hkmem
  exact close_matches_no_empty q pool hq hkmem

/-- C7.  Malformed candidate is unmatchable: for every query that does
not strip to the empty string, a candidate with empty first- and
last-name fields is never in the resolver's output — it fails the exact
tiers, the symmetric substring test, and the fuzzy cutoff (no error is
raised anywhere: the function is total). -/
theorem c7_malformed_unmatchable (raw : Str) (rows : List Row) (r : Row)
    (hf : r.f_name = []) (hl : r.l_name = []) (h : pyStrip raw ≠ []) :
    r ∉ ranked_matches raw rows := by
  intro hmem
  rw [ranked_matches_eq raw rows h] at hmem
  have hbk := (dedupByKey_sublist _ _).subset hmem
  have hq : normalize_greek (pyStrip raw) ≠ [] := normalize_ne_nil _ h
  have hnf : nfOf r = [] := by rw [nfOf_eq, hf, normalize_nil]
  have hnl : nlOf r = [] := by rw [nlOf_eq, hl, normalize_nil]
  have hnfull : nfullOf r = [] := by
    rw [nfullOf_eq, hf, hl, show display_name [] [] = [] from rfl,
      normalize_nil]
  rw [allBuckets] at hbk
  rcases List.mem_append.mp hbk with h4 | hfz
  · rcases List.mem_append.mp h4 with h3 | hs
    · rcases List.mem_append.mp h3 with h2 | hfu
      · rcases List.mem_append.mp h2 with hel | hef
        · have hb := (List.mem_filter.mp hel).2
          rw [bLast, hnl] at hb
          simp at hb
        · have hb := (List.mem_filter.mp hef).2
          simp only [Bool.and_eq_true] at hb
          have hb2 := hb.2
          rw [bFirst, hnf] at hb2
          simp at hb2
      · have hb := (List.mem_filter.mp hfu).2
        simp only [Bool.and_eq_true] at hb
        have hb2 := hb.2
        rw [bFull, hnfull] at hb2
        simp at hb2
    · have hb := (List.mem_filter.mp hs).2
      simp only [Bool.and_eq_true] at hb
      have hbs := hb.2
      rw [bSub, hnl, hnf, hnfull] at hbs
      have hemp : isSub (normalize_greek (pyStrip raw)) ([] : Str) = false := by
        show (normalize_greek (pyStrip raw)).isEmpty = false
        exact (isEmpty_false_iff _).mpr hq
      rw [hemp] at hbs
      simp at hbs
  · rw [fuzzy_hits] at hfz
    rcases List.mem_append.mp hfz with h12 | hf3
    · rcases List.mem_append.mp h12 with hf1 | hf2
      · exact not_mem_flatten_empty nfullOf rows _ _ hq r hnfull hf1
      · exact not_mem_flatten_empty nlOf rows _ _ hq r hnl hf2
    · exact not_mem_flatten_empty nfOf rows _ _ hq r hnf hf3

set_option maxRecDepth 8000 in
/-- Witness for C7: the malformed `rowM` is absent from the resolution of
`"Γιώργος"` over a snapshot that contains it. -/
theorem c7_malformed_unmatchable_witness :
    rowM ∉ ranked_matches (gstr "Γιώργος") [rowM, rowB] :=
  c7_malformed_unmatchable (gstr "Γιώργος") [rowM, rowB] rowM
    (by decide) (by decide) (by decide)

/-!
### Empty identifiers collapse (C9)
-/

theorem keyOf_empty (r : Row) (h : r.email = []) : keyOf r = [] := by
  rw [keyOf, h]
  rfl

theorem filter_empty_email_len (l : List Row)
    (h : (l.map keyOf).Nodup) :
    (l.filter fun r => decide (r.email = [])).length ≤ 1 := by
  induction l with
  | nil => simp
  | cons r rs ih =>
      simp only [List.map_cons, List.nodup_cons] at h
      rw [List.filter_cons]
      by_cases hr : r.email = []
      · rw [if_pos (by simp [hr])]
        have hnone : rs.filter (fun r => decide (r.email = [])) = [] := by
          rw [List.filter_eq_nil_iff]
          intro x hx hdx
          have hxe : x.email = [] := of_decide_eq_true hdx
          apply h.1
          rw [List.mem_map]
          exact ⟨x, hx, by rw [keyOf_empty x hxe, keyOf_empty r hr]⟩
        simp [hnone]
      · rw [if_neg (by simp [hr])]
        exact ih h.2

/-- C9.  Empty-identifier collapse: all matched candidates with an empty
identifier share the dedup key `""`, so the resolver's output never
contains two of them — for every query and snapshot, at most one output
row has an empty email. -/
theorem c9_empty_identifier_collapse (raw : Str) (rows : List Row) :
    ((ranked_matches raw rows).filter fun r => decide (r.email = [])).length
      ≤ 1 := by
  by_cases h : pyStrip raw = []
  · rw [ranked_matches_empty raw rows h]
    simp
  · rw [ranked_matches_eq raw rows h]
    exact filter_empty_email_len _ (dedupByKey_keys _ _).1

/-!
### The fuzzy cutoff boundary (C3)
-/

set_option maxRecDepth 4000 in
set_option maxHeartbeats 1600000 in
/-- C3.  Fuzzy cutoff boundary and limit: a candidate whose normalized
last name is at similarity ratio exactly `0.85 = 17/20` to the query is
in the fuzzy bucket (and in the output), one at ratio `0.84 = 21/25` is
not (the `>= 0.85` comparison is inclusive), and each projection pool
contributes at most `5` close-match strings per call. -/
theorem c3_fuzzy_cutoff :
    pyRatio (nlOf row085) q085 = 17/20 ∧
    row085 ∈ fuzzy_hits q085 [row085] ∧
    ranked_matches q085 [row085] = [row085] ∧
    pyRatio (nlOf row084) q084 = 21/25 ∧
    row084 ∉ fuzzy_hits q084 [row084] ∧
    ranked_matches q084 [row084] = [] ∧
    ∀ (q : Str) (pool : List Str) (cutoff : Nat × Nat),
      (get_close_matches q pool 5 cutoff).length ≤ 5 := by
  refine ⟨?_, by decide, by decide, ?_, by decide, by decide, ?_⟩
  · have hm : gMatches (nlOf row085) q085 = 17 := by decide
    have h1 : (nlOf row085).length = 20 := by decide
    have h2 : q085.length = 20 := by decide
    rw [pyRatio, hm, h1, h2]
    norm_num
  · have hm : gMatches (nlOf row084) q084 = 21 := by decide
    have h1 : (nlOf row084).length = 25 := by decide
    have h2 : q084.length = 25 := by decide
    rw [pyRatio, hm, h1, h2]
    norm_num
  · intro q pool cutoff
    simp only [get_close_matches, List.length_map, List.length_take]
    omega

/-- Witness for C3: the per-pool limit instantiated at a concrete call. -/
theorem c3_fuzzy_cutoff_witness :
    (get_close_matches q085 [nlOf row085] 5 (85, 100)).length ≤ 5 :=
  c3_fuzzy_cutoff.2.2.2.2.2.2 q085 [nlOf row085] (85, 100)

end Hua
